import Mathlib

set_option maxHeartbeats 1000000
set_option maxRecDepth 8000

/-!
Shallow embedding of the Go binary forensics engine of
`src/lib/dockerfile/types.ts`: the build-info locator and decoder
(`readRawBuildInfo`, `decodeString`, `readData`, `dataStart`,
`readString`), the module-info parsing of `extractModuleInformation`,
and the file-to-module classifier (`matchFilesToModules`,
`determinePaths`, `isTrimmed`, `determineVendorPath`,
`determineGoModCachePath`), together with the `GoBinary` constructor.

JS strings are modelled as lists of characters (`Str`), byte buffers as
lists of naturals (one natural per byte).  Thrown JS errors are modelled
by `Except GoError`.  JS number arithmetic is modelled over `Int`/`Nat`
where exactness matters for the verified claims.
-/

abbrev Str := List Char

deriving instance DecidableEq for Except

/-- JS `s.startsWith(pre)` on the list model. -/
def startsW [DecidableEq α] : List α → List α → Bool
  | _, [] => true
  | [], _ :: _ => false
  | a :: as, b :: bs => a == b && startsW as bs

/-- Embeds `trimPrefix` (source lines 485-490): drop `pre` from the
front of `s` when `s` starts with it. -/
def trimPre [DecidableEq α] (s pre : List α) : List α :=
  if startsW s pre then s.drop pre.length else s

/-- JS `String.prototype.split` with a one-character separator, as in
`mod.split("\n")` and `line.split("\t")` of `extractModuleInformation`. -/
def splitCh (c : Char) : Str → List Str
  | [] => [[]]
  | x :: xs =>
    let r := splitCh c xs
    if x = c then [] :: r
    else (x :: r.headD []) :: r.tail

/-- One pass of JS `String.prototype.split` with a non-empty separator:
scan left to right, cutting at each leftmost non-overlapping occurrence
of `sep`.  `fuel` bounds the recursion; `fuel = s.length` always
suffices because every step consumes at least one element of `s`. -/
def jsSplitF [DecidableEq α] (sep : List α) : Nat → List α → List (List α)
  | _, [] => [[]]
  | 0, s => [s]
  | fuel + 1, x :: xs =>
    if startsW (x :: xs) sep && !sep.isEmpty then
      [] :: jsSplitF sep fuel (xs.drop (sep.length - 1))
    else
      let r := jsSplitF sep fuel xs
      (x :: r.headD []) :: r.tail

/-- JS `s.split(sep)`.  For the empty separator JS splits into the list
of single characters. -/
def jsSplit [DecidableEq α] (sep s : List α) : List (List α) :=
  if sep.isEmpty then s.map (fun a => [a])
  else jsSplitF sep s.length s

/-- Concatenation with separators: `joinWith sep [a, b, c] = a ++ sep ++ b ++ sep ++ c`; the inverse of
splitting, used to state what the splitters produce. -/
def joinWith (sep : List α) : List (List α) → List α
  | [] => []
  | [x] => x
  | x :: y :: t => x ++ sep ++ joinWith sep (y :: t)

/-- JS `s.indexOf(pat)`, with `-1` modelled as `none`. -/
def findSubIdx [DecidableEq α] (pat : List α) : List α → Option Nat
  | [] => if pat.isEmpty then some 0 else none
  | s@(_ :: rest) =>
    if startsW s pat then some 0 else (findSubIdx pat rest).map (fun i => i + 1)

/-- JS `s.includes(pat)`. -/
def containsSub [DecidableEq α] (pat s : List α) : Bool :=
  (findSubIdx pat s).isSome

/-- Whether the string contains two consecutive slash characters. -/
def hasDoubleSlash : Str → Bool
  | [] => false
  | [_] => false
  | a :: b :: t => (a = '/' && b = '/') || hasDoubleSlash (b :: t)

/-- Helper for the Node `path.posix.parse(p).dir` model: on a reversed
string, drop everything up to and including the first `'/'`; `none` when
there is no `'/'` at all. -/
def afterSlashRev : Str → Option Str
  | [] => none
  | c :: cs => if c = '/' then some cs else afterSlashRev cs

/-- Node `path.posix.parse(p).dir` for a path whose root slash has been
stripped: mirror Node's back-to-front scan, which first skips trailing
separators, then cuts right before the basename; the `dir` part is
everything before that cut (without the separator itself). -/
def dirCore (u : Str) : Option Str :=
  (afterSlashRev (u.reverse.dropWhile (fun c => c = '/'))).map List.reverse

/-- Node `path.posix.parse(p).dir` as used at source line 157.  A path
starting with `'/'` is absolute: Node keeps the root, and returns `"/"`
when no further directory part exists. -/
def pathDir (s : Str) : Str :=
  if s.head? = some '/' then
    match dirCore s.tail with
    | some d => '/' :: d
    | none => ['/']
  else
    match dirCore s with
    | some d => d
    | none => []

/-- The normalisation of source lines 157-160: the parsed `dir`, with a
bare `"/"` replaced by the empty string. -/
def dirOfRest (p1 : Str) : Str :=
  let d := pathDir p1
  if d = ['/'] then [] else d

/-- Node `path.posix.normalize`: collapse repeated separators, resolve
`.` and `..` segments against the preceding segments (keeping leading
`..` of relative paths, dropping `..` at the root of absolute paths),
and preserve a trailing separator. -/
def posixNormalize (s : Str) : Str :=
  let abs := s.head? == some '/'
  let trail := s.getLast? == some '/' && decide (1 < s.length)
  let segs := (splitCh '/' s).filter (fun seg => !seg.isEmpty && seg != ['.'])
  let stack := segs.foldl (fun acc seg =>
    if seg == ['.', '.'] then
      match acc with
      | top :: rest => if top == ['.', '.'] then seg :: acc else rest
      | [] => if abs then [] else [seg]
    else seg :: acc) []
  let core := joinWith ['/'] stack.reverse
  let core := if abs then '/' :: core else core
  let core := if core.isEmpty then (if abs then ['/'] else ['.']) else core
  if trail && (core.getLast? != some '/') then core ++ ['/'] else core

/-- Node `path.posix.join(a, b)` as used at source lines 456 and 467:
join the non-empty parts with a separator and normalize. -/
def posixJoin (a b : Str) : Str :=
  let parts := [a, b].filter (fun p => !p.isEmpty)
  if parts.isEmpty then ['.'] else posixNormalize (joinWith ['/'] parts)

/-- JS `Buffer.toString("binary")`: latin-1 decoding, byte `b` becomes the
character with code point `b`. -/
def latin1 (bs : List Nat) : Str := bs.map (fun b => Char.ofNat b)

/-- Failures of the analysis.  `message` models a thrown `Error(msg)`;
`fileNameErr` the `GoFileNameError` object of source lines 147-150;
`typeErr` a JS `TypeError` raised by accessing a property of
`undefined`; `diverge` marks inputs on which the source's scan loop
never terminates (not a thrown error: the JS function simply never
returns). -/
inductive GoError
  | message (msg : String)
  | fileNameErr (fileName moduleName : Str)
  | typeErr
  | diverge
deriving DecidableEq

structure ElfSection where
  name : String
  addr : Nat
  data : List Nat
deriving DecidableEq

structure ElfProgramFlags where
  w : Bool
deriving DecidableEq

structure ElfProgram where
  type : String
  vaddr : Nat
  filesz : Nat
  flags : ElfProgramFlags
  data : List Nat
deriving DecidableEq

structure ElfBody where
  sections : List ElfSection
  programs : List ElfProgram
deriving DecidableEq

structure Elf where
  body : ElfBody
deriving DecidableEq

/-- Modelled from the spec: the `GoModule` class of
`lib/go-parser/go-module.ts` is not under `src/`; per spec §3 a module
is an identity `(name, version)` owning a set of package paths,
initially empty. -/
structure GoModule where
  name : Str
  version : Str
  packages : List Str
deriving DecidableEq

/-- Modelled from the spec: `GoModule.fullName() = name + "@" + version`
(spec §3). -/
def fullName (m : GoModule) : Str := m.name ++ '@' :: m.version

/-- Embeds `readData` (source lines 357-379): scan the program segments
in declared order and return the slice of the first segment whose byte
range contains `addr`.  The comparisons and sizes are over `Int`,
mirroring JS number arithmetic. -/
def readData : List ElfProgram → Nat → Nat → Option (List Nat)
  | [], _, _ => none
  | p :: ps, addr, size =>
    if (p.vaddr : Int) ≤ (addr : Int) ∧
        (addr : Int) ≤ (p.vaddr : Int) + (p.filesz : Int) - 1 then
      let n0 : Int := (p.vaddr : Int) + (p.filesz : Int) - (addr : Int)
      let n : Int := if n0 > (size : Int) then (size : Int) else n0
      some ((p.data.drop ((addr : Int) - (p.vaddr : Int)).toNat).take n.toNat)
    else readData ps addr size

/-- Embeds `dataStart` (source lines 333-347). -/
def dataStart (elf : Elf) : Nat :=
  match elf.body.sections.find? (fun s => s.name == ".go.buildinfo") with
  | some s => s.addr
  | none =>
    match elf.body.programs.find? (fun p => p.type == "load" && p.flags.w) with
    | some p => p.vaddr
    | none => 0

/-- The npm `varint` decoder (`varint.decode` plus the `decode.bytes`
side channel): LEB128, 7 data bits per byte, MSB continuation.  The
decoder throws a `RangeError("Could not decode varint")` when the buffer
is exhausted or once `shift > 49`; both checks happen at the top of each
iteration.  Returns `(value, bytes consumed)`. -/
def varintReadAux : List Nat → Nat → Nat → Except GoError (Nat × Nat)
  | [], _, _ => .error (.message ("Could not decode varint"))
  | b :: rest, shift, acc =>
    if shift > 49 then .error (.message ("Could not decode varint"))
    else
      let acc := acc + b % 128 * 2 ^ shift
      if b ≥ 128 then
        match varintReadAux rest (shift + 7) acc with
        | .ok (v, n) => .ok (v, n + 1)
        | .error e => .error e
      else .ok (acc, 1)

/-- Embeds `decodeString` (source lines 316-325).  The decoded string is
returned as its raw bytes; callers apply `latin1` where the source
applies `toString("binary")`. -/
def decodeString (data : List Nat) : Except GoError (List Nat × List Nat) :=
  match varintReadAux data 0 0 with
  | .error e => .error e
  | .ok (num, size) =>
    if size ≤ 0 ∨ (num : Int) ≥ (data.length : Int) - (size : Int) then .ok ([], [])
    else .ok ((data.drop size).take num, data.drop (num + size))

/-- The 14 bytes of the magic `"\xff Go buildinf:"`. -/
def buildInfoMagic : List Nat :=
  [255, 32, 71, 111, 32, 98, 117, 105, 108, 100, 105, 110, 102, 58]

/-- The skip expression `(i + buildInfoAlign - 1) & ~buildInfoAlign` of
source line 239, with `buildInfoAlign = 16`.  In JS the 32-bit `~16`
clears exactly bit 4, so the expression equals
`(i + 15) - ((i + 15) & 16)`. -/
def alignSkip (i : Nat) : Nat := (i + 15) - ((i + 15) &&& 16)

inductive ScanStep
  | err
  | done (data : List Nat)
  | cont (data : List Nat)
deriving DecidableEq

/-- One iteration of the `while (true)` scan loop of `readRawBuildInfo`
(source lines 230-240): locate the magic, throw when it is missing or
fewer than 32 bytes follow, accept an aligned match, otherwise skip by
`alignSkip`. -/
def scanStep (data : List Nat) : ScanStep :=
  match findSubIdx buildInfoMagic data with
  | none => .err
  | some i =>
    if data.length - i < 32 then .err
    else if i % 16 = 0 ∧ 32 ≤ data.length - i then .done (data.drop i)
    else .cont (data.drop (alignSkip i))

inductive ScanOut
  | err
  | found (data : List Nat)
  | diverge
deriving DecidableEq

/-- The scan loop run for at most `fuel` iterations.  A `.cont` step
either strictly shrinks the buffer or repeats it verbatim
(`scanStep_cont_shrink` below), and a verbatim repetition repeats
forever, so running with `fuel = data.length + 1` decides the loop:
`.diverge` is produced exactly when the source loop never terminates. -/
def scanRun : Nat → List Nat → ScanOut
  | 0, _ => .diverge
  | fuel + 1, d =>
    match scanStep d with
    | .err => .err
    | .done d' => .found d'
    | .cont d' => scanRun fuel d'

/-- JS `Buffer.readUInt32BE(0)`. -/
def readUInt32BE (b : List Nat) : Nat :=
  b.getD 0 0 * 16777216 + b.getD 1 0 * 65536 + b.getD 2 0 * 256 + b.getD 3 0

/-- JS `Buffer.readUInt32LE(0)`. -/
def readUInt32LE (b : List Nat) : Nat :=
  b.getD 3 0 * 16777216 + b.getD 2 0 * 65536 + b.getD 1 0 * 256 + b.getD 0 0

/-- JS `Number(Buffer.readBigUInt64BE())` (exact; the JS float rounding
above 2^53 is outside the verified claims). -/
def readUInt64BE (b : List Nat) : Nat :=
  readUInt32BE b * 4294967296 + readUInt32BE (b.drop 4)

/-- JS `Number(Buffer.readBigUInt64LE())`. -/
def readUInt64LE (b : List Nat) : Nat :=
  readUInt32LE (b.drop 4) * 4294967296 + readUInt32LE b

/-- Embeds `readString` (source lines 392-413). -/
def readString (elf : Elf) (ptrSize : Nat) (readPtr : List Nat → Nat) (addr : Nat) : Str :=
  match readData elf.body.programs addr (2 * ptrSize) with
  | none => []
  | some hdr =>
    if hdr.length < 2 * ptrSize then []
    else
      match readData elf.body.programs (readPtr hdr) (readPtr (hdr.drop ptrSize)) with
      | none => []
      | some d => if d.length < readPtr (hdr.drop ptrSize) then [] else latin1 d

/-- Embeds `readRawBuildInfo` (source lines 217-314).  The scan loop is
executed through `scanRun`; `GoError.diverge` marks the inputs on which
the source's loop never terminates. -/
def readRawBuildInfo (elf : Elf) : Except GoError Str :=
  let data0 := (readData elf.body.programs (dataStart elf) 65536).getD []
  match scanRun (data0.length + 1) data0 with
  | .err => .error (.message ("not a Go executable"))
  | .diverge => .error .diverge
  | .found data =>
    let ptrSize := data.getD 14 0
    if data.getD 15 0 &&& 2 ≠ 0 then
      match decodeString (data.drop 32) with
      | .error e => .error e
      | .ok (_, rest) =>
        match decodeString rest with
        | .error e => .error e
        | .ok (mod, _) => .ok (latin1 mod)
    else
      let bigEndian := data.getD 15 0 != 0
      let readPtr : List Nat → Nat :=
        if ptrSize = 4 then if bigEndian then readUInt32BE else readUInt32LE
        else if bigEndian then readUInt64BE else readUInt64LE
      let version := readString elf ptrSize readPtr (readPtr ((data.drop 16).take ptrSize))
      if version.isEmpty then .error (.message ("no version found in go binary"))
      else
        let mod := readString elf ptrSize readPtr
          (readPtr ((data.drop (16 + ptrSize)).take ptrSize))
        if 33 ≤ mod.length ∧ mod.get? (mod.length - 17) = some '\n' then
          .ok ((mod.drop 16).take (mod.length - 32))
        else .error (.message ("binary is not built with go module support"))

/-- JS string coercion of a possibly-`undefined` value: concatenating
`undefined` into a string yields the text `"undefined"`. -/
def jsStr : Option Str → Str
  | some s => s
  | none => "undefined".toList

/-- One iteration of the `versionsLines.forEach` loop of
`extractModuleInformation` (source lines 198-205): fields 1 and 2 of
the tab-split line; skip the line when either is missing or empty. -/
def parseVersionLine (line : Str) : Option GoModule :=
  let f := splitCh '\t' line
  match f.get? 1, f.get? 2 with
  | some n, some v => if n.isEmpty || v.isEmpty then none else some ⟨n, v, []⟩
  | _, _ => none

/-- Embeds the module-info parsing of `extractModuleInformation`
(source lines 180-207) as a function of the decoded blob.  The binary
name is `none` where the JS value would be `undefined` (a `mod` line
without a second tab field).  A blob without a newline leaves
`mainModuleLine` `undefined`, and `undefined.split` throws a
`TypeError` (`GoError.typeErr`). -/
def parseModInfo (mod : Str) : Except GoError (Option Str × List GoModule) :=
  if mod.isEmpty then .error (.message ("binary contains empty module info"))
  else
    let lines := splitCh '\n' mod
    match lines.get? 1 with
    | none => .error .typeErr
    | some mainModuleLine =>
      let lineSplit := splitCh '\t' mainModuleLine
      let name : Option Str :=
        if lineSplit.headD [] ≠ "mod".toList then
          some ("go-distribution@".toList ++ jsStr ((splitCh '\t' (lines.headD [])).get? 1))
        else lineSplit.get? 1
      .ok (name, (lines.drop 2).filterMap parseVersionLine)

/-- Embeds `extractModuleInformation` (source lines 177-208):
`readRawBuildInfo` followed by the textual parsing. -/
def extractModuleInformation (elf : Elf) : Except GoError (Option Str × List GoModule) :=
  match readRawBuildInfo elf with
  | .error e => .error e
  | .ok mod => parseModInfo mod

/-- Embeds `isTrimmed` (source lines 415-423): all file names are
relative. -/
def isTrimmed (files : List Str) : Bool :=
  files.all (fun f => !startsW f ['/'])

/-- Embeds `determineGoModCachePath` (source lines 474-483). -/
def determineGoModCachePath : List GoModule → List Str → Str
  | [], _ => []
  | m :: ms, files =>
    match files.find? (fun f => containsSub ('/' :: fullName m) f) with
    | some file => (jsSplit (fullName m) file).headD []
    | none => determineGoModCachePath ms files

/-- Embeds `determineVendorPath` (source lines 448-472). -/
def determineVendorPath : List GoModule → List Str → Str
  | [], _ => []
  | m :: ms, files =>
    let vendoredModulePath := posixJoin ("vendor".toList) m.name ++ ['/']
    match files.find? (fun f => containsSub vendoredModulePath f) with
    | some file =>
      let mainModulePath := (jsSplit vendoredModulePath file).headD []
      match files.find? (fun f =>
          containsSub mainModulePath f && !containsSub vendoredModulePath f) with
      | some _ => posixJoin mainModulePath ("vendor".toList) ++ ['/']
      | none => determineVendorPath ms files
    | none => determineVendorPath ms files

structure DPaths where
  modCachePath : Str
  vendorPath : Str
deriving DecidableEq

/-- Embeds `determinePaths` (source lines 434-446). -/
def determinePaths (modules : List GoModule) (files : List Str) : DPaths :=
  if isTrimmed files then ⟨[], []⟩
  else ⟨determineGoModCachePath modules files, determineVendorPath modules files⟩

/-- The body of the inner `for (const module of this.modules)` loop of
`matchFilesToModules` (source lines 137-167) for one module.  `useName`
is true in the vendor branch, where the classification key is
`mod.name` instead of `mod.fullName()`. -/
def matchModule (useName : Bool) (pkgFile : Str) (m : GoModule) : Except GoError GoModule :=
  let modFullName := if useName then m.name else fullName m
  if startsW pkgFile modFullName then
    let parts := jsSplit modFullName pkgFile
    if parts.length ≠ 2 ∨ parts.get? 0 ≠ some [] then
      .error (.fileNameErr pkgFile modFullName)
    else
      let pkgName := m.name ++ dirOfRest (parts.getD 1 [])
      if pkgName ∈ m.packages then .ok m
      else .ok { m with packages := m.packages ++ [pkgName] }
  else .ok m

/-- The inner module loop of `matchFilesToModules` over the whole
module list (a thrown `GoFileNameError` aborts the remaining modules,
as in the source). -/
def classifyFileMods (useName : Bool) (pkgFile : Str) : List GoModule → Except GoError (List GoModule)
  | [] => .ok []
  | m :: ms =>
    match matchModule useName pkgFile m with
    | .error e => .error e
    | .ok m' =>
      match classifyFileMods useName pkgFile ms with
      | .error e => .error e
      | .ok ms' => .ok (m' :: ms')

/-- The body of the outer `for (const fileName of files)` loop of
`matchFilesToModules` (source lines 112-131): sentinel skip, vendor
branch, module-cache branch, trimmed branch, otherwise skip. -/
def classifyFile (modCachePath vendorPath : Str) (mods : List GoModule) (fileName : Str) :
    Except GoError (List GoModule) :=
  if fileName = "<autogenerated>".toList then .ok mods
  else if !vendorPath.isEmpty && startsW fileName vendorPath then
    classifyFileMods true (trimPre fileName vendorPath) mods
  else if !modCachePath.isEmpty && startsW fileName modCachePath then
    classifyFileMods false (trimPre fileName modCachePath) mods
  else if vendorPath.isEmpty && modCachePath.isEmpty then
    classifyFileMods false fileName mods
  else .ok mods

/-- The outer file loop of `matchFilesToModules`. -/
def processFiles (modCachePath vendorPath : Str) : List GoModule → List Str → Except GoError (List GoModule)
  | mods, [] => .ok mods
  | mods, f :: fs =>
    match classifyFile modCachePath vendorPath mods f with
    | .error e => .error e
    | .ok mods' => processFiles modCachePath vendorPath mods' fs

/-- Embeds `GoBinary.matchFilesToModules` (source lines 110-169),
returning the updated module list. -/
def matchFilesToModules (modules : List GoModule) (files : List Str) : Except GoError (List GoModule) :=
  let p := determinePaths modules files
  processFiles p.modCachePath p.vendorPath modules files

structure GoBinary where
  name : Option Str
  modules : List GoModule
deriving DecidableEq

/-- Embeds the `GoBinary` constructor (source lines 65-82).  The
`LineTable`/`go12MapFiles` collaborator lives in
`lib/go-parser/pclntab.ts`, which is not under `src/`; modelled from the
spec (§4.5) it is abstracted as the parameter `pclnFiles`, mapping the
raw `.gopclntab` bytes to the list of source file paths. -/
def goBinaryConstruct (pclnFiles : List Nat → List Str) (elf : Elf) : Except GoError GoBinary :=
  match extractModuleInformation elf with
  | .error e => .error e
  | .ok (name, modules) =>
    match elf.body.sections.find? (fun s => s.name == ".gopclntab") with
    | none => .error (.message ("no pcln table present in Go binary"))
    | some pclnTab =>
      match matchFilesToModules modules (pclnFiles pclnTab.data) with
      | .error e => .error e
      | .ok modules' => .ok ⟨name, modules'⟩

/-- Module-info content `"path\ta\nmod\tm\tv1\n"` as raw bytes. -/
def modContent : List Nat :=
  [112, 97, 116, 104, 9, 97, 10, 109, 111, 100, 9, 109, 9, 118, 49, 10]

/-- Module-info content `"path\ta\nmod\tm\tv1\n"` as a string. -/
def modContentStr : Str := "path\ta\nmod\tm\tv1\n".toList

/-- An ELF with no sections and no program segments. -/
def elfEmpty : Elf := ⟨⟨[], []⟩⟩

/-- A data buffer whose only occurrence of the build-info magic is at
offset 7, with 25 trailing bytes (46 bytes total, so 39 bytes remain
past the match). -/
def c2data : List Nat := List.replicate 7 0 ++ buildInfoMagic ++ List.replicate 25 0

/-- An ELF whose single writable loadable segment at virtual address 0
carries `c2data`. -/
def elfC2 : Elf := ⟨⟨[], [⟨"load", 0, 46, ⟨true⟩, c2data⟩]⟩⟩

/-- An inline-string-mode build-info blob: magic, ptrSize 8, flags 2,
16 padding bytes, the varint-prefixed version string `"x"`, the
varint-prefixed module info `modContent`, one trailing byte. -/
def inlineBlob : List Nat :=
  buildInfoMagic ++ [8, 2] ++ List.replicate 16 0 ++ [1, 120] ++ [16] ++ modContent ++ [0]

/-- An ELF carrying `inlineBlob` in a writable loadable segment at
virtual address 0, with no sections (in particular no `.gopclntab`). -/
def elfInline : Elf := ⟨⟨[], [⟨"load", 0, 52, ⟨true⟩, inlineBlob⟩]⟩⟩

/-- A pointer-mode build-info image parametrised by the flags byte `f`:
magic at offset 0, ptrSize 4, flags `f`; the two header pointers (at
offsets 16 and 20) hold the big-endian encodings of 40 and 48; offset 40
holds the version string header (data 56, length 3: `"go1"`), offset 48
the module-info header (data 64, length 48), and offset 64 the
module-info string: 16 filler bytes, `modContent`, 16 filler bytes. -/
def ptrData (f : Nat) : List Nat :=
  buildInfoMagic ++ [4, f] ++
  [0, 0, 0, 40, 0, 0, 0, 48] ++ List.replicate 8 0 ++
  List.replicate 8 0 ++
  [0, 0, 0, 56, 0, 0, 0, 3] ++
  [0, 0, 0, 64, 0, 0, 0, 48] ++
  [103, 111, 49] ++ List.replicate 5 0 ++
  List.replicate 16 48 ++ modContent ++ List.replicate 16 48

/-- An ELF carrying `ptrData f` in a writable loadable segment at
virtual address 0. -/
def elfPtr (f : Nat) : Elf := ⟨⟨[], [⟨"load", 0, 112, ⟨true⟩, ptrData f⟩]⟩⟩

theorem startsW_eq [DecidableEq α] (p s : List α) (h : startsW s p = true) :
    s = p ++ s.drop p.length := by
  induction p generalizing s with
  | nil => simp
  | cons b bs ih =>
    cases s with
    | nil => simp [startsW] at h
    | cons a as =>
      simp only [startsW, Bool.and_eq_true, beq_iff_eq] at h
      obtain ⟨rfl, h2⟩ := h
      simpa using ih as h2

theorem startsW_append_self [DecidableEq α] (p t : List α) : startsW (p ++ t) p = true := by
  induction p with
  | nil => cases t <;> rfl
  | cons a as ih => simp [startsW, ih]

theorem jsSplitF_ne_nil [DecidableEq α] (sep : List α) (fuel : Nat) (s : List α) :
    jsSplitF sep fuel s ≠ [] := by
  cases fuel with
  | zero => cases s <;> simp [jsSplitF]
  | succ n =>
    cases s with
    | nil => simp [jsSplitF]
    | cons x xs =>
      simp only [jsSplitF]
      split <;> simp

theorem joinWith_cons_head (sep : List α) (x : α) (h : List α) (t : List (List α)) :
    joinWith sep ((x :: h) :: t) = x :: joinWith sep (h :: t) := by
  cases t <;> simp [joinWith]

theorem jsSplitF_join [DecidableEq α] (sep : List α) (fuel : Nat) (s : List α) :
    joinWith sep (jsSplitF sep fuel s) = s := by
  induction fuel generalizing s with
  | zero => cases s <;> simp [jsSplitF, joinWith]
  | succ n ih =>
    cases s with
    | nil => simp [jsSplitF, joinWith]
    | cons x xs =>
      simp only [jsSplitF]
      by_cases hm : startsW (x :: xs) sep = true ∧ sep ≠ []
      · have hsep : sep.isEmpty = false := by
          cases sep with
          | nil => exact absurd rfl hm.2
          | cons a as => rfl
        rw [if_pos (by simp [hm.1, hsep])]
        have hne := jsSplitF_ne_nil sep n (xs.drop (sep.length - 1))
        cases hr : jsSplitF sep n (xs.drop (sep.length - 1)) with
        | nil => exact absurd hr hne
        | cons r rs =>
          have hjoin := ih (xs.drop (sep.length - 1))
          rw [hr] at hjoin
          have hdec := startsW_eq sep (x :: xs) hm.1
          have hdrop : (x :: xs).drop sep.length = xs.drop (sep.length - 1) := by
            cases sep with
            | nil => exact absurd rfl hm.2
            | cons a as => simp
          rw [hdrop] at hdec
          calc joinWith sep ([] :: r :: rs) = sep ++ joinWith sep (r :: rs) := by simp [joinWith]
            _ = sep ++ xs.drop (sep.length - 1) := by rw [hjoin]
            _ = x :: xs := hdec.symm
      · rw [if_neg (by
          intro hc
          simp only [Bool.and_eq_true, Bool.not_eq_true'] at hc
          exact hm ⟨hc.1, by cases sep with | nil => simp at hc | cons a as => simp⟩)]
        have hne := jsSplitF_ne_nil sep n xs
        cases hr : jsSplitF sep n xs with
        | nil => exact absurd hr hne
        | cons r rs =>
          have hjoin := ih xs
          rw [hr] at hjoin
          simp only [List.headD_cons, List.tail_cons]
          rw [joinWith_cons_head, hjoin]

theorem splitCh_ne_nil (c : Char) (s : Str) : splitCh c s ≠ [] := by
  cases s with
  | nil => simp [splitCh]
  | cons x xs => simp only [splitCh]; split <;> simp

theorem splitCh_not_mem (c : Char) (s : Str) (h : c ∉ s) : splitCh c s = [s] := by
  induction s with
  | nil => rfl
  | cons x xs ih =>
    simp only [List.mem_cons, not_or] at h
    simp only [splitCh]
    rw [if_neg (fun hc => h.1 hc.symm), ih h.2]
    rfl

theorem splitCh_mem_len (c : Char) (s : Str) (h : c ∈ s) : 2 ≤ (splitCh c s).length := by
  induction s with
  | nil => simp at h
  | cons x xs ih =>
    simp only [splitCh]
    by_cases hx : x = c
    · rw [if_pos hx]
      have := splitCh_ne_nil c xs
      cases hr : splitCh c xs with
      | nil => exact absurd hr this
      | cons r rs => simp
    · rw [if_neg hx]
      have hmem : c ∈ xs := by
        rcases List.mem_cons.mp h with h1 | h2
        · exact absurd h1.symm hx
        · exact h2
      have h2 := ih hmem
      have := splitCh_ne_nil c xs
      cases hr : splitCh c xs with
      | nil => exact absurd hr this
      | cons r rs =>
        rw [hr] at h2
        simpa using h2

theorem hds_cons (a : Char) (r : Str) (h : hasDoubleSlash (a :: r) = false) :
    hasDoubleSlash r = false := by
  cases r with
  | nil => rfl
  | cons b t =>
    simp only [hasDoubleSlash, Bool.or_eq_false_iff] at h
    exact h.2

theorem hds_append_right (a b : Str) (h : hasDoubleSlash (a ++ b) = false) :
    hasDoubleSlash b = false := by
  induction a with
  | nil => simpa using h
  | cons x xs ih => exact ih (hds_cons x (xs ++ b) h)

theorem hds_drop (s : Str) (n : Nat) (h : hasDoubleSlash s = false) :
    hasDoubleSlash (s.drop n) = false := by
  have := List.take_append_drop n s
  exact hds_append_right (s.take n) (s.drop n) (by rw [this]; exact h)

theorem hds_mid (a b : Str) : hasDoubleSlash (a ++ '/' :: '/' :: b) = true := by
  induction a with
  | nil => simp [hasDoubleSlash]
  | cons x xs ih =>
    cases xs with
    | nil => simp [hasDoubleSlash]
    | cons y ys =>
      simp only [List.cons_append] at ih ⊢
      simp [hasDoubleSlash, ih]

theorem afterSlashRev_decomp (r cs : Str) (h : afterSlashRev r = some cs) :
    ∃ pre, r = pre ++ '/' :: cs := by
  induction r with
  | nil => simp [afterSlashRev] at h
  | cons c t ih =>
    simp only [afterSlashRev] at h
    by_cases hc : c = '/'
    · rw [if_pos hc] at h
      injection h with h
      exact ⟨[], by simp [hc, h]⟩
    · rw [if_neg hc] at h
      obtain ⟨pre, hpre⟩ := ih h
      exact ⟨c :: pre, by simp [hpre]⟩

theorem dirCore_no_tail_slash (u d : Str) (hu : hasDoubleSlash u = false)
    (h : dirCore u = some d) : d.getLast? ≠ some '/' := by
  intro hlast
  unfold dirCore at h
  cases ha : afterSlashRev (u.reverse.dropWhile (fun c => c = '/')) with
  | none => rw [ha] at h; exact Option.noConfusion h
  | some cs =>
    rw [ha] at h
    simp only [Option.map_some', Option.some.injEq] at h
    obtain ⟨pre, hpre⟩ := afterSlashRev_decomp _ cs ha
    have hsplit := List.takeWhile_append_dropWhile (fun c => decide (c = '/')) u.reverse
    rw [hpre] at hsplit
    have hu_eq : u = cs.reverse ++ '/' ::
        (pre.reverse ++ (u.reverse.takeWhile (fun c => decide (c = '/'))).reverse) := by
      calc u = u.reverse.reverse := (List.reverse_reverse u).symm
        _ = ((u.reverse.takeWhile (fun c => decide (c = '/'))) ++ (pre ++ '/' :: cs)).reverse := by
            rw [hsplit]
        _ = cs.reverse ++ '/' ::
            (pre.reverse ++ (u.reverse.takeWhile (fun c => decide (c = '/'))).reverse) := by
            simp [List.reverse_append, List.append_assoc]
    have hd : d ≠ [] := by
      intro hnil
      rw [hnil] at hlast
      exact Option.noConfusion hlast
    have hgl : d.getLast hd = '/' := by
      have h2 := List.getLast?_eq_getLast d hd
      rw [h2] at hlast
      exact Option.some.inj hlast
    have hdecomp : d.dropLast ++ ['/'] = d := by
      have h3 := List.dropLast_append_getLast hd
      rw [hgl] at h3
      exact h3
    rw [h] at hu_eq
    rw [hu_eq, ← hdecomp] at hu
    have hfin : hasDoubleSlash (d.dropLast ++ '/' :: '/' ::
        (pre.reverse ++ (u.reverse.takeWhile (fun c => decide (c = '/'))).reverse)) = false := by
      simpa [List.append_assoc] using hu
    rw [hds_mid] at hfin
    exact Bool.noConfusion hfin

theorem lastQ_cons (c : Char) (d : Str) (hd : d ≠ []) : (c :: d).getLast? = d.getLast? := by
  cases d with
  | nil => exact absurd rfl hd
  | cons a t => simp [List.getLast?]

theorem pathDir_no_tail_slash (s : Str) (hs : hasDoubleSlash s = false) :
    pathDir s = ['/'] ∨ (pathDir s).getLast? ≠ some '/' := by
  unfold pathDir
  by_cases hh : s.head? = some '/'
  · rw [if_pos hh]
    cases hdc : dirCore s.tail with
    | none => left; rfl
    | some d =>
      have htail : hasDoubleSlash s.tail = false := by
        cases s with
        | nil => simp at hh
        | cons a t => exact hds_cons a t hs
      have hlast := dirCore_no_tail_slash s.tail d htail hdc
      cases hd : d with
      | nil => left; rfl
      | cons x xs =>
        right
        rw [← hd, lastQ_cons '/' d (by rw [hd]; simp)]
        exact hlast
  · rw [if_neg hh]
    cases hdc : dirCore s with
    | none => right; simp
    | some d => right; exact dirCore_no_tail_slash s d hs hdc

theorem dirOfRest_good (p1 : Str) (h : hasDoubleSlash p1 = false) :
    dirOfRest p1 = [] ∨ (dirOfRest p1).getLast? ≠ some '/' := by
  unfold dirOfRest
  by_cases hd : pathDir p1 = ['/']
  · rw [if_pos hd]; left; rfl
  · rw [if_neg hd]
    rcases pathDir_no_tail_slash p1 h with h1 | h2
    · exact absurd h1 hd
    · right; exact h2

theorem pkg_last_ne_slash (nm d : Str) (hname : nm.getLast? ≠ some '/')
    (hd : d = [] ∨ d.getLast? ≠ some '/') : (nm ++ d).getLast? ≠ some '/' := by
  rcases hd with rfl | hd
  · simpa using hname
  · by_cases hdn : d = []
    · subst hdn; simpa using hname
    · rw [List.getLast?_append_of_ne_nil _ hdn]; exact hd

theorem nodup_concat [DecidableEq α] (l : List α) (a : α) (h : l.Nodup) (ha : a ∉ l) :
    (l ++ [a]).Nodup := by
  simp only [List.nodup_append, List.nodup_cons, List.not_mem_nil, not_false_iff, List.nodup_nil,
    and_true, true_and]
  exact ⟨h, fun x hx hxa => ha ((List.mem_singleton.mp hxa) ▸ hx)⟩

theorem matchModule_spec (useName : Bool) (pkgFile : Str) (m m' : GoModule)
    (h : matchModule useName pkgFile m = .ok m') :
    m'.name = m.name ∧ m'.version = m.version ∧
    (m'.packages = m.packages ∨
      ∃ p1, pkgFile = (if useName then m.name else fullName m) ++ p1 ∧
        m'.packages = m.packages ++ [m.name ++ dirOfRest p1] ∧
        m.name ++ dirOfRest p1 ∉ m.packages) := by
  simp only [matchModule] at h
  by_cases hstart : startsW pkgFile (if useName then m.name else fullName m) = true
  · rw [if_pos hstart] at h
    by_cases hguard : (jsSplit (if useName then m.name else fullName m) pkgFile).length ≠ 2 ∨
        (jsSplit (if useName then m.name else fullName m) pkgFile).get? 0 ≠ some []
    · rw [if_pos hguard] at h; exact Except.noConfusion h
    · rw [if_neg hguard] at h
      push_neg at hguard
      obtain ⟨hlen, hfirst⟩ := hguard
      obtain ⟨a, b, hab⟩ : ∃ a b, jsSplit (if useName then m.name else fullName m) pkgFile = [a, b] := by
        cases hp : jsSplit (if useName then m.name else fullName m) pkgFile with
        | nil => rw [hp] at hlen; simp at hlen
        | cons x t =>
          cases t with
          | nil => rw [hp] at hlen; simp at hlen
          | cons y t2 =>
            cases t2 with
            | nil => exact ⟨x, y, rfl⟩
            | cons z t3 => rw [hp] at hlen; simp at hlen
      rw [hab] at hfirst
      simp only [List.get?] at hfirst
      injection hfirst with hfirst
      subst hfirst
      have hsepne : (if useName then m.name else fullName m) ≠ [] := by
        intro hnil
        rw [hnil] at hab
        simp only [jsSplit, List.isEmpty_nil, if_pos] at hab
        cases hpk : pkgFile with
        | nil => rw [hpk] at hab; simp at hab
        | cons c rest => rw [hpk] at hab; simp at hab
      have hjoin : (if useName then m.name else fullName m) ++ b = pkgFile := by
        have hj := jsSplitF_join (if useName then m.name else fullName m) pkgFile.length pkgFile
        have hab' : jsSplitF (if useName then m.name else fullName m) pkgFile.length pkgFile = [[], b] := by
          have : ((if useName then m.name else fullName m) : Str).isEmpty = false := by
            cases hc : (if useName then m.name else fullName m) with
            | nil => exact absurd hc hsepne
            | cons x xs => rfl
          rw [jsSplit, this] at hab
          simpa using hab
        rw [hab'] at hj
        simpa [joinWith] using hj
      rw [hab] at h
      simp only [List.getD, List.get?_cons_succ, List.get?_cons_zero, Option.getD_some] at h
      by_cases hmem : m.name ++ dirOfRest b ∈ m.packages
      · rw [if_pos hmem] at h
        injection h with h
        subst h
        exact ⟨rfl, rfl, Or.inl rfl⟩
      · rw [if_neg hmem] at h
        injection h with h
        subst h
        exact ⟨rfl, rfl, Or.inr ⟨b, hjoin.symm, rfl, hmem⟩⟩
  · rw [if_neg hstart] at h
    injection h with h
    subst h
    exact ⟨rfl, rfl, Or.inl rfl⟩

theorem classifyFileMods_pres (P : GoModule → Prop) (u : Bool) (pf : Str)
    (hstep : ∀ m m', matchModule u pf m = .ok m' → P m → P m') :
    ∀ mods res, classifyFileMods u pf mods = .ok res →
      (∀ m ∈ mods, P m) → ∀ m ∈ res, P m := by
  intro mods
  induction mods with
  | nil =>
    intro res h hP
    simp only [classifyFileMods] at h
    injection h with h
    subst h
    intro m hm
    cases hm
  | cons m ms ih =>
    intro res h hP
    simp only [classifyFileMods] at h
    cases hm : matchModule u pf m with
    | error e => rw [hm] at h; exact Except.noConfusion h
    | ok m' =>
      rw [hm] at h
      cases hms : classifyFileMods u pf ms with
      | error e => rw [hms] at h; exact Except.noConfusion h
      | ok ms' =>
        rw [hms] at h
        injection h with h
        subst h
        intro x hx
        rcases List.mem_cons.mp hx with rfl | hxs
        · exact hstep m x hm (hP m (by simp))
        · exact ih ms' hms (fun y hy => hP y (by simp [hy])) x hxs

theorem classifyFile_pres (P : GoModule → Prop) (mcp vp : Str) (f : Str)
    (hstep : ∀ (u : Bool) (n : Nat) (m m' : GoModule),
      matchModule u (f.drop n) m = .ok m' → P m → P m') :
    ∀ mods res, classifyFile mcp vp mods f = .ok res →
      (∀ m ∈ mods, P m) → ∀ m ∈ res, P m := by
  intro mods res h hP
  have htrim : ∀ (p : Str), ∃ n, trimPre f p = f.drop n := by
    intro p
    unfold trimPre
    by_cases hs : startsW f p = true
    · exact ⟨p.length, by rw [if_pos hs]⟩
    · exact ⟨0, by rw [if_neg hs]; simp⟩
  unfold classifyFile at h
  by_cases h1 : f = "<autogenerated>".toList
  · rw [if_pos h1] at h
    injection h with h
    subst h
    exact hP
  · rw [if_neg h1] at h
    by_cases h2 : (!vp.isEmpty && startsW f vp) = true
    · rw [if_pos h2] at h
      obtain ⟨n, hn⟩ := htrim vp
      rw [hn] at h
      exact classifyFileMods_pres P true (f.drop n) (hstep true n) mods res h hP
    · rw [if_neg h2] at h
      by_cases h3 : (!mcp.isEmpty && startsW f mcp) = true
      · rw [if_pos h3] at h
        obtain ⟨n, hn⟩ := htrim mcp
        rw [hn] at h
        exact classifyFileMods_pres P false (f.drop n) (hstep false n) mods res h hP
      · rw [if_neg h3] at h
        by_cases h4 : (vp.isEmpty && mcp.isEmpty) = true
        · rw [if_pos h4] at h
          have h0 : f = f.drop 0 := by simp
          rw [h0] at h
          exact classifyFileMods_pres P false (f.drop 0) (hstep false 0) mods res h hP
        · rw [if_neg h4] at h
          injection h with h
          subst h
          exact hP

theorem processFiles_pres (P : GoModule → Prop) (mcp vp : Str) :
    ∀ (files : List Str),
      (∀ f ∈ files, ∀ (u : Bool) (n : Nat) (m m' : GoModule),
        matchModule u (f.drop n) m = .ok m' → P m → P m') →
      ∀ mods res, processFiles mcp vp mods files = .ok res →
        (∀ m ∈ mods, P m) → ∀ m ∈ res, P m := by
  intro files
  induction files with
  | nil =>
    intro _ mods res h hP
    simp only [processFiles] at h
    injection h with h
    subst h
    exact hP
  | cons f fs ih =>
    intro hstep mods res h hP
    simp only [processFiles] at h
    cases hc : classifyFile mcp vp mods f with
    | error e => rw [hc] at h; exact Except.noConfusion h
    | ok mods' =>
      rw [hc] at h
      have hP' := classifyFile_pres P mcp vp f (hstep f (by simp)) mods mods' hc hP
      exact ih (fun g hg => hstep g (by simp [hg])) mods' res h hP'

theorem scanStep_cont_shrink (d d' : List Nat) (h : scanStep d = .cont d') :
    d'.length < d.length ∨ d' = d := by
  unfold scanStep at h
  cases hf : findSubIdx buildInfoMagic d with
  | none => rw [hf] at h; exact ScanStep.noConfusion h
  | some i =>
    rw [hf] at h
    dsimp only at h
    by_cases h1 : d.length - i < 32
    · rw [if_pos h1] at h; exact ScanStep.noConfusion h
    · rw [if_neg h1] at h
      by_cases h2 : i % 16 = 0 ∧ 32 ≤ d.length - i
      · rw [if_pos h2] at h; exact ScanStep.noConfusion h
      · rw [if_neg h2] at h
        injection h with h
        subst h
        cases hk : alignSkip i with
        | zero => right; simp [hk]
        | succ k =>
          left
          have hlen : 32 ≤ d.length - i := by omega
          simp only [List.length_drop]
          omega

theorem scanRun_fixed (d : List Nat) (h : scanStep d = .cont d) :
    ∀ fuel, scanRun fuel d = .diverge := by
  intro fuel
  induction fuel with
  | zero => rfl
  | succ n ih => simp only [scanRun]; rw [h]; exact ih

/-- Claim C1 (counterexample): the claim "no package name appears in the
package sets of two distinct modules" is false.  Two modules of the same
name but different versions (as produced by a dependency and its
replacement line) both receive the package name `m/a` from the trimmed
files `m@v1/a/x.go` and `m@v2/a/x.go`, and the two modules are distinct. -/
theorem c1_counterexample :
    matchFilesToModules
        [⟨"m".toList, "v1".toList, []⟩, ⟨"m".toList, "v2".toList, []⟩]
        ["m@v1/a/x.go".toList, "m@v2/a/x.go".toList]
      = .ok [⟨"m".toList, "v1".toList, ["m/a".toList]⟩, ⟨"m".toList, "v2".toList, ["m/a".toList]⟩] ∧
    (⟨"m".toList, "v1".toList, ["m/a".toList]⟩ : GoModule) ≠ ⟨"m".toList, "v2".toList, ["m/a".toList]⟩ := by
  decide

/-- Claim C1 (amended): on every successful classification, each single
module's package set lists every package name at most once (the
insertion at source lines 163-165 is guarded by a membership test), so
package sets stay duplicate-free; a package name may however appear in
the package sets of two distinct modules. -/
theorem c1_amended_nodup (mods : List GoModule) (files : List Str) (res : List GoModule)
    (hinit : ∀ m ∈ mods, m.packages.Nodup)
    (hrun : matchFilesToModules mods files = .ok res) :
    ∀ m ∈ res, m.packages.Nodup := by
  unfold matchFilesToModules at hrun
  refine processFiles_pres (fun m => m.packages.Nodup) _ _ files ?_ mods res hrun hinit
  intro f _ u n m m' hm hP
  obtain ⟨_, _, hcase⟩ := matchModule_spec u (f.drop n) m m' hm
  rcases hcase with heq | ⟨p1, _, hpkgs, hnotmem⟩
  · show m'.packages.Nodup
    rw [heq]
    exact hP
  · show m'.packages.Nodup
    rw [hpkgs]
    exact nodup_concat _ _ hP hnotmem

/-- Witness for C1: the amended theorem applied to a concrete run. -/
theorem c1_witness : (["m/a".toList] : List Str).Nodup := by
  have h := c1_amended_nodup
    [⟨"m".toList, "v1".toList, []⟩, ⟨"m".toList, "v2".toList, []⟩]
    ["m@v1/a/x.go".toList, "m@v2/a/x.go".toList]
    [⟨"m".toList, "v1".toList, ["m/a".toList]⟩, ⟨"m".toList, "v2".toList, ["m/a".toList]⟩]
    (by decide) (by decide)
  exact h ⟨"m".toList, "v1".toList, ["m/a".toList]⟩ (by decide)

/-- Claim C7 (counterexample): the claim "no emitted package name ends
with `/`" is false.  A file whose remainder after the module key
contains consecutive slashes yields package name `m//a/`, and a module
name ending in `/` yields package name `n/`; both end with a slash. -/
theorem c7_counterexample :
    (matchFilesToModules [⟨"m".toList, "v1".toList, []⟩] ["m@v1//a//b.go".toList]
        = .ok [⟨"m".toList, "v1".toList, ["m//a/".toList]⟩] ∧
      ("m//a/".toList).getLast? = some '/') ∧
    (matchFilesToModules [⟨"n/".toList, "v".toList, []⟩] ["n/@v/a.go".toList]
        = .ok [⟨"n/".toList, "v".toList, ["n/".toList]⟩] ∧
      ("n/".toList).getLast? = some '/') := by
  decide

/-- Claim C7 (amended): every package name added by
`matchFilesToModules` begins with the owning module's `name` (the
construction at source line 162 uses `module.name`, never `fullName`),
and, provided no file name contains two consecutive slashes and no
module name ends with `/`, no package name ends with `/`. -/
theorem c7_amended (mods : List GoModule) (files : List Str) (res : List GoModule)
    (hinit : ∀ m ∈ mods, m.packages = [] ∧ m.name.getLast? ≠ some '/')
    (hfiles : ∀ f ∈ files, hasDoubleSlash f = false)
    (hrun : matchFilesToModules mods files = .ok res) :
    ∀ m ∈ res, ∀ p ∈ m.packages, startsW p m.name = true ∧ p.getLast? ≠ some '/' := by
  unfold matchFilesToModules at hrun
  have hstep : ∀ f ∈ files, ∀ (u : Bool) (n : Nat) (m m' : GoModule),
      matchModule u (f.drop n) m = .ok m' →
      (m.name.getLast? ≠ some '/' ∧
        ∀ p ∈ m.packages, startsW p m.name = true ∧ p.getLast? ≠ some '/') →
      (m'.name.getLast? ≠ some '/' ∧
        ∀ p ∈ m'.packages, startsW p m'.name = true ∧ p.getLast? ≠ some '/') := by
    intro f hf u n m m' hm hP
    obtain ⟨hname, _, hcase⟩ := matchModule_spec u (f.drop n) m m' hm
    constructor
    · rw [hname]; exact hP.1
    · intro p hp
      rw [hname]
      rcases hcase with heq | ⟨p1, hp1, hpkgs, _⟩
      · rw [heq] at hp
        exact hP.2 p hp
      · rw [hpkgs] at hp
        rcases List.mem_append.mp hp with hold | hnew
        · exact hP.2 p hold
        · have hpeq : p = m.name ++ dirOfRest p1 := List.mem_singleton.mp hnew
          subst hpeq
          have hdsf : hasDoubleSlash (f.drop n) = false := hds_drop f n (hfiles f hf)
          have hdsp1 : hasDoubleSlash p1 = false := by
            apply hds_append_right (if u then m.name else fullName m) p1
            rw [← hp1]
            exact hdsf
          have hgood := dirOfRest_good p1 hdsp1
          exact ⟨startsW_append_self m.name (dirOfRest p1),
            pkg_last_ne_slash m.name (dirOfRest p1) hP.1 hgood⟩
  have hinv : ∀ m ∈ mods, m.name.getLast? ≠ some '/' ∧
      ∀ p ∈ m.packages, startsW p m.name = true ∧ p.getLast? ≠ some '/' := by
    intro m hm
    obtain ⟨hemp, hn⟩ := hinit m hm
    refine ⟨hn, ?_⟩
    rw [hemp]
    intro p hp
    cases hp
  have main := processFiles_pres
    (fun m => m.name.getLast? ≠ some '/' ∧
      ∀ p ∈ m.packages, startsW p m.name = true ∧ p.getLast? ≠ some '/')
    _ _ files hstep mods res hrun hinv
  intro m hm p hp
  exact (main m hm).2 p hp

/-- Witness for C7: the amended theorem applied to a concrete run. -/
theorem c7_witness :
    startsW ("m/a".toList) ("m".toList) = true ∧ ("m/a".toList).getLast? ≠ some '/' := by
  have h := c7_amended [⟨"m".toList, "v1".toList, []⟩] ["m@v1/a/x.go".toList]
    [⟨"m".toList, "v1".toList, ["m/a".toList]⟩] (by decide) (by decide) (by decide)
  exact h ⟨"m".toList, "v1".toList, ["m/a".toList]⟩ (by decide) ("m/a".toList) (by decide)

/-- Claim C10: for the empty file list and any module list,
`determinePaths` returns both prefixes empty (the vacuous all-relative
check classifies the empty list as trimmed) and `matchFilesToModules`
raises no error and returns the modules unchanged. -/
theorem c10_empty_files (mods : List GoModule) :
    determinePaths mods [] = ⟨[], []⟩ ∧ matchFilesToModules mods [] = .ok mods :=
  ⟨rfl, rfl⟩

/-- Claim C2 (code bug): for a 46-byte buffer whose only magic
occurrence is at offset 7, `readRawBuildInfo` does NOT terminate with
"not a Go executable" as the spec requires: the first skip lands the
match at offset 1 of the window, where the faulty alignment expression
`(i + 15) & ~16` evaluates to 0, so the scan pointer never advances
again and the source loop runs forever (the second conjunct exhibits the
fixed point of `scanStep`). -/
theorem c2_scan_diverges :
    readRawBuildInfo elfC2 = .error .diverge ∧
    scanStep (c2data.drop 6) = .cont (c2data.drop 6) := by
  decide

/-- Claim C3 (counterexample): the claim "the pcln error is raised
regardless of build-info validity" is false.  An ELF with no sections
(hence no `.gopclntab`) and no segments fails with "not a Go
executable", because `extractModuleInformation` runs before the pcln
check in the `GoBinary` constructor. -/
theorem c3_counterexample :
    elfEmpty.body.sections.find? (fun s => s.name == ".gopclntab") = none ∧
    goBinaryConstruct (fun _ => []) elfEmpty = .error (.message ("not a Go executable")) ∧
    GoError.message ("not a Go executable") ≠ GoError.message ("no pcln table present in Go binary") := by
  refine ⟨rfl, rfl, ?_⟩
  intro h
  injection h with h
  exact absurd h (by decide)

/-- Claim C3 (amended): for every ELF whose build-info extraction
succeeds and whose section list lacks `.gopclntab`, the `GoBinary`
constructor fails with "no pcln table present in Go binary", for every
pcln decoder. -/
theorem c3_amended (pclnFiles : List Nat → List Str) (elf : Elf) (nm : Option Str)
    (mods : List GoModule)
    (hex : extractModuleInformation elf = .ok (nm, mods))
    (hsec : elf.body.sections.find? (fun s => s.name == ".gopclntab") = none) :
    goBinaryConstruct pclnFiles elf = .error (.message ("no pcln table present in Go binary")) := by
  unfold goBinaryConstruct
  rw [hex]
  dsimp only
  rw [hsec]

/-- Witness for C3: the amended theorem applied to a concrete
inline-mode ELF without a `.gopclntab` section. -/
theorem c3_witness :
    goBinaryConstruct (fun _ => []) elfInline
      = .error (.message ("no pcln table present in Go binary")) :=
  c3_amended (fun _ => []) elfInline (some ("m".toList)) [] (by decide) rfl

/-- Claim C4 (counterexample): the claim "a string whose n bytes
exactly fill the remainder of the buffer decodes successfully" is
false.  In `[2, 97, 98]` the varint length 2 exactly fills the 2
remaining bytes, yet `decodeString` returns `("", empty)` because the
guard at source line 319 uses `num >= data.length - size`. -/
theorem c4_counterexample :
    decodeString [2, 97, 98] = .ok ([], []) ∧
    decodeString [2, 97, 98] ≠ .ok ([97, 98], []) := by
  decide

/-- Claim C4 (amended): whenever the varint decodes to `(num, size)`,
`decodeString` returns `("", empty)` exactly when the byte count is
non-positive or `num` is greater than OR EQUAL to the bytes remaining
after the varint; otherwise it returns the `num` raw bytes following the
varint together with the remainder.  Exact-fill strings therefore fail. -/
theorem c4_amended (data : List Nat) (num size : Nat)
    (hv : varintReadAux data 0 0 = .ok (num, size)) :
    (decodeString data = .ok ([], []) ↔
      size ≤ 0 ∨ (num : Int) ≥ (data.length : Int) - (size : Int)) ∧
    (¬ (size ≤ 0 ∨ (num : Int) ≥ (data.length : Int) - (size : Int)) →
      decodeString data = .ok ((data.drop size).take num, data.drop (num + size))) := by
  constructor
  · constructor
    · intro h
      unfold decodeString at h
      rw [hv] at h
      dsimp only at h
      by_cases hc : size ≤ 0 ∨ (num : Int) ≥ (data.length : Int) - (size : Int)
      · exact hc
      · exfalso
        rw [if_neg hc] at h
        injection h with h
        rw [Prod.mk.injEq] at h
        obtain ⟨h1, h2⟩ := h
        rcases List.take_eq_nil_iff.mp h1 with hnum | hdrop
        · have hlen := List.drop_eq_nil_iff.mp h2
          push_neg at hc
          omega
        · have hlen := List.drop_eq_nil_iff.mp hdrop
          push_neg at hc
          omega
    · intro hc
      unfold decodeString
      rw [hv]
      dsimp only
      rw [if_pos hc]
  · intro hc
    unfold decodeString
    rw [hv]
    dsimp only
    rw [if_neg hc]

/-- Witness for C4: the amended theorem applied to `[1, 97, 98]`,
whose 1-byte string leaves one remaining byte and decodes. -/
theorem c4_witness :
    varintReadAux [1, 97, 98] 0 0 = .ok (1, 1) ∧
    decodeString [1, 97, 98] = .ok ([97], [98]) := by
  refine ⟨by decide, ?_⟩
  have h := (c4_amended [1, 97, 98] 1 1 (by decide)).2 (by decide)
  exact h.trans (by decide)

/-- Claim C5 (counterexample): the claim "addresses are read big-endian
iff bit 0 of the flags byte is set" is false.  Flags bytes 4 and 0 are
both pointer-mode with bit 0 clear, so the claim predicts identical
little-endian decoding on images differing only in that byte; but the
code treats 4 as big-endian (the big-endian-encoded pointers of
`ptrData` resolve and decoding succeeds) while 0 is decoded
little-endian (the pointer misresolves and decoding fails). -/
theorem c5_counterexample :
    4 &&& 1 = 0 ∧ 0 &&& 1 = 0 ∧
    readRawBuildInfo (elfPtr 4) = .ok modContentStr ∧
    readRawBuildInfo (elfPtr 0) = .error (.message ("no version found in go binary")) := by
  decide

/-- Claim C5 (amended): in pointer mode the decoder reads the
addresses big-endian iff the flags byte is nonzero (`data[15] !== 0` at
source line 259): for every byte value `f` with bit 1 clear and `f ≠ 0`
the big-endian-laid-out image decodes successfully, bit 0
notwithstanding. -/
theorem c5_amended : ∀ f : Nat, f < 256 → f &&& 2 = 0 → f ≠ 0 →
    readRawBuildInfo (elfPtr f) = .ok modContentStr := by
  decide

/-- Witness for C5: the amended theorem applied at flags byte 4. -/
theorem c5_witness : readRawBuildInfo (elfPtr 4) = .ok modContentStr :=
  c5_amended 4 (by decide) (by decide) (by decide)

/-- Claim C6 (confirmed): `readData` scans the segments in declared
order, selects the first whose interval `[vaddr, vaddr + filesz)`
contains `addr`, and returns the slice of its data from offset
`addr - vaddr` of length `min size (vaddr + filesz - addr)`; it returns
`none` exactly when no segment's interval covers `addr` (stated via
`List.find?`, whose `none` case is exactly "no segment covers"). -/
theorem c6_readData_spec (programs : List ElfProgram) (addr size : Nat) :
    readData programs addr size =
      (programs.find? (fun p => decide (p.vaddr ≤ addr ∧ addr < p.vaddr + p.filesz))).map
        (fun p => (p.data.drop (addr - p.vaddr)).take (min size (p.vaddr + p.filesz - addr))) := by
  induction programs with
  | nil => rfl
  | cons p ps ih =>
    simp only [readData]
    by_cases hc : (p.vaddr : Int) ≤ (addr : Int) ∧
        (addr : Int) ≤ (p.vaddr : Int) + (p.filesz : Int) - 1
    · rw [if_pos hc]
      have hb : (fun q : ElfProgram => decide (q.vaddr ≤ addr ∧ addr < q.vaddr + q.filesz)) p
          = true := by
        simp only [decide_eq_true_eq]
        omega
      rw [@List.find?_cons_of_pos ElfProgram
        (fun q : ElfProgram => decide (q.vaddr ≤ addr ∧ addr < q.vaddr + q.filesz)) p ps hb]
      simp only [Option.map_some']
      have e1 : ((addr : Int) - (p.vaddr : Int)).toNat = addr - p.vaddr := by omega
      by_cases h2 : ((p.vaddr : Int) + (p.filesz : Int) - (addr : Int)) > (size : Int)
      · rw [if_pos h2]
        have e2 : ((size : Nat) : Int).toNat = min size (p.vaddr + p.filesz - addr) := by omega
        rw [e1, e2]
      · rw [if_neg h2]
        have e2 : ((p.vaddr : Int) + (p.filesz : Int) - (addr : Int)).toNat
            = min size (p.vaddr + p.filesz - addr) := by omega
        rw [e1, e2]
    · rw [if_neg hc]
      have hb : ¬ ((fun q : ElfProgram => decide (q.vaddr ≤ addr ∧ addr < q.vaddr + q.filesz)) p
          = true) := by
        simp only [decide_eq_true_eq]
        omega
      rw [@List.find?_cons_of_neg ElfProgram
        (fun q : ElfProgram => decide (q.vaddr ≤ addr ∧ addr < q.vaddr + q.filesz)) p ps hb]
      exact ih

/-- Claim C8 (confirmed): for every module-info blob whose second line
exists and whose first tab field is not `mod`, `parseModInfo` (the blob
parsing of `extractModuleInformation`) returns as binary name
`"go-distribution@"` concatenated with the second tab field of line 0. -/
theorem c8_go_distribution (mod : Str) (l1 p : Str)
    (h1 : (splitCh '\n' mod).get? 1 = some l1)
    (h2 : (splitCh '\t' l1).headD [] ≠ "mod".toList)
    (h3 : (splitCh '\t' ((splitCh '\n' mod).headD [])).get? 1 = some p) :
    parseModInfo mod = .ok (some ("go-distribution@".toList ++ p),
      ((splitCh '\n' mod).drop 2).filterMap parseVersionLine) := by
  have hne : mod.isEmpty = false := by
    cases mod with
    | nil => simp [splitCh] at h1
    | cons c cs => rfl
  unfold parseModInfo
  simp only [hne, Bool.false_eq_true, if_false]
  rw [h1]
  dsimp only
  rw [if_pos h2, h3]
  rfl

/-- Witness for C8: a blob whose line 0 is the path directive for
`cmd/vet` and which has no `mod` line yields `go-distribution@cmd/vet`. -/
theorem c8_witness :
    parseModInfo ("path\tcmd/vet\n".toList)
      = .ok (some ("go-distribution@cmd/vet".toList), []) := by
  have h := c8_go_distribution ("path\tcmd/vet\n".toList) [] ("cmd/vet".toList)
    (by decide) (by decide) (by decide)
  exact h.trans (by decide)

/-- Claim C9 (confirmed): a non-empty module-info blob without a
newline makes the destructured `mainModuleLine` undefined and the parse
fails with the unhandled `TypeError` (not one of the defined structural
errors); when the blob contains a newline that failure branch is
unreachable. -/
theorem c9_totality :
    (∀ mod : Str, mod ≠ [] → '\n' ∉ mod → parseModInfo mod = .error .typeErr) ∧
    (∀ mod : Str, '\n' ∈ mod → parseModInfo mod ≠ .error .typeErr) := by
  constructor
  · intro mod hne hnl
    have hemp : mod.isEmpty = false := by
      cases mod with
      | nil => exact absurd rfl hne
      | cons c cs => rfl
    unfold parseModInfo
    simp only [hemp, Bool.false_eq_true, if_false]
    rw [splitCh_not_mem '\n' mod hnl]
    rfl
  · intro mod hmem
    have hlen := splitCh_mem_len '\n' mod hmem
    have hemp : mod.isEmpty = false := by
      cases mod with
      | nil => simp at hmem
      | cons c cs => rfl
    unfold parseModInfo
    simp only [hemp, Bool.false_eq_true, if_false]
    obtain ⟨a, b, t, hab⟩ : ∃ a b t, splitCh '\n' mod = a :: b :: t := by
      cases hs : splitCh '\n' mod with
      | nil => rw [hs] at hlen; simp at hlen
      | cons x r =>
        cases r with
        | nil => rw [hs] at hlen; simp at hlen
        | cons y t => exact ⟨x, y, t, rfl⟩
    rw [hab]
    simp only [List.get?_cons_succ, List.get?_cons_zero]
    intro hc
    exact Except.noConfusion hc

/-- Witness for C9: both parts of the totality theorem applied at
concrete blobs. -/
theorem c9_witness :
    parseModInfo ("abc".toList) = .error .typeErr ∧
    parseModInfo ("a\nb".toList) ≠ .error .typeErr :=
  ⟨c9_totality.1 ("abc".toList) (by decide) (by decide),
    c9_totality.2 ("a\nb".toList) (by decide)⟩
